import Mathlib

/-!
Verification of the app-framework data-table engine and log pipeline.

Shallow embedding of the TypeScript sources:
* `useColumnOrder` / `useColumnDragDrop` (column order reconciliation, drag reorder)
* `useColumnVisibility` (visibility map with locked columns)
* `usePagination` (page clamping state machine)
* `useResizableColumns` (width clamping)
* `DataTable` selection helpers
* `LogViewer` normalize / coalesce / sort / cap pipeline and fetch effects

JavaScript arrays of strings become `List String`; `Array.prototype.indexOf`
(returning -1 when absent) becomes `jsIndexOf : List String → String → Int`;
`splice` clamping semantics are embedded explicitly; machine numbers that the
claims quantify over are embedded as `Int`/`ℚ`/`Nat` as appropriate.
-/

namespace AppFramework


/-- JS `Array.prototype.indexOf` search: index of the first occurrence of `x`,
`none` when absent. -/

def jsIndexOfAux (x : String) : List String → Option Nat
  | [] => none
  | c :: rest => if c = x then some 0 else (jsIndexOfAux x rest).map (· + 1)

/-- JS `Array.prototype.indexOf`: first index of `x` in `l`, `-1` when absent. -/

def jsIndexOf (l : List String) (x : String) : Int :=
  match jsIndexOfAux x l with
  | some i => (i : Nat)
  | none => -1

/-- The insertion-point search loop of `useColumnOrder`'s reconciliation:
`insertAt` starts at `result.length` and is set to the first index whose
element satisfies the predicate (then the loop breaks). -/

def insertPos (p : String → Bool) : List String → Nat
  | [] => 0
  | c :: rest => if p c then 0 else insertPos p rest + 1

/-- JS `arr.splice(n, 0, x)`: insert `x` at index `n` (appending when `n` is
at or past the end, as `splice` clamps the start index to the length). -/

def spliceIn : Nat → String → List String → List String
  | 0, x, l => x :: l
  | _ + 1, x, [] => [x]
  | n + 1, x, c :: rest => c :: spliceIn n x rest

/-- One iteration of the reconciliation loop of `useColumnOrder` (source:
`part_012`, lines 46-58): the missing id `m` is spliced in before the first
element of `res` whose canonical index exceeds `m`'s canonical index. -/

def insertMissingCode (canonical : List String) (res : List String) (m : String) :
    List String :=
  spliceIn (insertPos (fun c => decide (jsIndexOf canonical m < jsIndexOf canonical c)) res)
    m res

/-- Embedding of `parsed.filter(col => defaultSet.has(col))`: the stored ids that are still
canonical ("surviving" ids). -/

def validStoredOf (canonical stored : List String) : List String :=
  stored.filter (fun c => canonical.contains c)

/-- Embedding of `defaultOrder.filter(col => !storedSet.has(col))`: the canonical ids absent
from the stored list. -/

def missingOf (canonical stored : List String) : List String :=
  canonical.filter (fun c => !(stored.contains c))

/-- The reconciliation of `useColumnOrder`'s `useState` initializer (source:
`part_012`, lines 29-68): drop stored ids that are no longer canonical, then
insert each canonical id missing from the stored list; when nothing was
missing, fall back to the canonical order if the filtered stored list is
empty. -/

def reconcileOrder (canonical stored : List String) : List String :=
  if (missingOf canonical stored).isEmpty then
    if (validStoredOf canonical stored).isEmpty then canonical
    else validStoredOf canonical stored
  else
    (missingOf canonical stored).foldl (insertMissingCode canonical)
      (validStoredOf canonical stored)

/-- Modelled from the spec's wording of the reconciliation step: a missing id
is inserted immediately before the first *surviving* element (an element of
the filtered stored list) whose canonical index exceeds the missing id's
canonical index. -/

def insertMissingSpec (canonical stored : List String) (res : List String) (m : String) :
    List String :=
  spliceIn
    (insertPos
      (fun c => stored.contains c && decide (jsIndexOf canonical m < jsIndexOf canonical c))
      res)
    m res

/-- The reconciliation algorithm as the spec words it: drop ids not in
`canonical`, insert each missing canonical id before the first surviving
element of larger canonical index (append when none), and fall back to
`canonical` when the result is empty. -/

def reconcileSpec (canonical stored : List String) : List String :=
  if ((missingOf canonical stored).foldl (insertMissingSpec canonical stored)
      (validStoredOf canonical stored)).isEmpty then canonical
  else
    (missingOf canonical stored).foldl (insertMissingSpec canonical stored)
      (validStoredOf canonical stored)

/-! ### moveColumn (claim C10) -/

/-- JS `splice` start-index normalization: a negative start counts from the
end (clamped at 0); a nonnegative start is clamped to the length. -/

def jsSpliceStart (len : Nat) (start : Int) : Nat :=
  if start < 0 then ((len : Int) + start).toNat else min start.toNat len

/-- Embedding of `moveColumn` of `useColumnOrder` (source: `part_012`, lines 79-90):
equal indices are a no-op; otherwise one element is spliced out at
`fromIndex` and, when something was actually removed, spliced back in at
`toIndex` (JS `splice` clamping rules for both indices; the insertion index
is normalized against the shortened list). -/

def moveColumn (l : List String) (fromIndex toIndex : Int) : List String :=
  if fromIndex = toIndex then l
  else
    match l.get? (jsSpliceStart l.length fromIndex) with
    | some removed =>
        spliceIn (jsSpliceStart (l.length - 1) toIndex) removed
          (l.take (jsSpliceStart l.length fromIndex) ++
            l.drop (jsSpliceStart l.length fromIndex + 1))
    | none =>
        l.take (jsSpliceStart l.length fromIndex) ++
          l.drop (jsSpliceStart l.length fromIndex + 1)

/-! ### Pagination (claim C3)

Embedding of `usePagination` (source: `part_014`). The dataset itself is
irrelevant to the page arithmetic, so the state keeps only `data.length`. -/

/-- Embedding of `Math.ceil(n / pageSize)` for natural `n` and positive `pageSize`. -/

def ceilDiv (n pageSize : Nat) : Nat := (n + pageSize - 1) / pageSize

structure PgState where
  n : Nat
  page : Nat
  pageSize : Nat
  deriving Repr, DecidableEq

/-- Embedding of `totalPages = Math.max(1, Math.ceil(data.length / pageSize))` (source:
`part_014`, lines 75-78). -/

def totalPages (st : PgState) : Nat := max 1 (ceilDiv st.n st.pageSize)

/-- The clamp of `setPage`: `Math.max(1, Math.min(newPage, totalPages))`
(source: `part_014`, lines 112-117). -/

def clampPage (p : Int) (tp : Nat) : Nat := (max 1 (min p (tp : Int))).toNat

inductive PageEvent where
  | setPage (p : Int)
  | setPageSize (s : Nat)
  | nextPage
  | prevPage
  | firstPage
  | lastPage
  | dataChange (n : Nat)

/-- The state change of each navigation call of `usePagination` (source:
`part_014`, lines 112-140); `nextPage`/`prevPage`/`firstPage`/`lastPage` all
funnel through `setPage`, and a data-length change replaces `n`. -/

def applyEvent (st : PgState) : PageEvent → PgState
  | .setPage p => { st with page := clampPage p (totalPages st) }
  | .setPageSize s => { st with page := 1, pageSize := s }
  | .nextPage => { st with page := clampPage ((st.page : Int) + 1) (totalPages st) }
  | .prevPage => { st with page := clampPage ((st.page : Int) - 1) (totalPages st) }
  | .firstPage => { st with page := clampPage 1 (totalPages st) }
  | .lastPage => { st with page := clampPage ((totalPages st : Int)) (totalPages st) }
  | .dataChange n => { st with n := n }

/-- The reactive clamp effect (source: `part_014`, lines 81-85): whenever the
current page exceeds the recomputed page count, reset it to
`Math.max(1, totalPages)`; no error is surfaced. -/

def reactiveClamp (st : PgState) : PgState :=
  if totalPages st < st.page then { st with page := max 1 (totalPages st) } else st

/-- One committed update: the event's state change followed by the reactive
clamp effect. -/

def pgStep (st : PgState) (e : PageEvent) : PgState := reactiveClamp (applyEvent st e)

/-- The claim's side conditions on events: `setPageSize` is called with a
page size of at least 1. -/

def validEvent : PageEvent → Prop
  | .setPageSize s => 1 ≤ s
  | _ => True

/-- Mount state: page 1 (the hook always starts on the first page). -/

def pgInit (n0 pageSize0 : Nat) : PgState := ⟨n0, 1, pageSize0⟩

def pgInvariant (st : PgState) : Prop :=
  1 ≤ st.page ∧ st.page ≤ totalPages st ∧ 1 ≤ st.pageSize

/-! ### Column resize width clamping (claim C4)

Embedding of the width computation of `useResizableColumns` (source:
`src/ui/data-table/hooks/useResizableColumns.ts`). Pixel coordinates and
widths become rationals. -/

/-- The effective minimum width `config?.minWidth || DEFAULT_MIN_WIDTH`
(source line 140): JS `||` falls back to the default 50 when `minWidth` is
unset or 0. -/

def effMinWidth (cfgMin : Option ℚ) : ℚ :=
  match cfgMin with
  | some m => if m = 0 then 50 else m
  | none => 50

/-- The width computation of `onPointerMove` (source lines 139-146): floor at
the minimum, then cap at `maxWidth` when it is configured and nonzero (JS
truthiness of `if (maxWidth)`). -/

def resizeWidth (startWidth diff : ℚ) (cfgMin cfgMax : Option ℚ) : ℚ :=
  match cfgMax with
  | some m =>
      if m = 0 then max (effMinWidth cfgMin) (startWidth + diff)
      else min m (max (effMinWidth cfgMin) (startWidth + diff))
  | none => max (effMinWidth cfgMin) (startWidth + diff)

/-- The pointer-move handler with its drag-threshold guard (source lines
118-154): before the 3px threshold is crossed no width is produced; after
that the clamped width is committed. -/

def pointerMoveWidth (hasDragged : Bool) (startX currentX startWidth : ℚ)
    (cfgMin cfgMax : Option ℚ) : Option ℚ :=
  if !hasDragged ∧ |currentX - startX| < 3 then none
  else some (resizeWidth startWidth (currentX - startX) cfgMin cfgMax)

/-- The spec's `clamp(x, lo, hi)`: raise to `lo` after capping at `hi`
(no cap when `hi` is absent). -/

def clampSpec (x lo : ℚ) (hi : Option ℚ) : ℚ :=
  match hi with
  | some h => max lo (min h x)
  | none => max lo x

/-! ### Selection page scoping (claim C6)

Embedding of the selection helpers of `DataTable` (source:
`src/ui/data-table/components/DataTable.tsx`, lines 161-193) over the page
slice of `usePagination`. -/

/-- Embedding of `data.slice(startIndex, endIndex)` of `usePagination` (source:
`part_014`, lines 101-109): `startIndex = (page - 1) * pageSize`,
`endIndex = min(startIndex + pageSize, data.length)`. -/

def pageSlice {α : Type} (data : List α) (page pageSize : Nat) : List α :=
  (data.drop ((page - 1) * pageSize)).take
    (min ((page - 1) * pageSize + pageSize) data.length - (page - 1) * pageSize)

/-- The table state relevant to selection: the dataset, the pagination state
and the externally-held selection set (`selectedIds`). -/

structure TableState (α : Type) where
  data : List α
  page : Nat
  pageSize : Nat
  selected : Finset String

/-- A pagination event as committed by `DataTable`'s pagination hook: only
`page`/`pageSize` change; the selection set is not touched by any
navigation path. -/

def navStep {α : Type} (st : TableState α) (e : PageEvent) : TableState α :=
  let pg := pgStep ⟨st.data.length, st.page, st.pageSize⟩ e
  { st with page := pg.page, pageSize := pg.pageSize }

/-- Embedding of `selectAll` (source: `DataTable.tsx`, lines 184-188): replace the
selection with the set of row ids of the current page's slice. -/

def selectAll {α : Type} (getRowId : α → String) (st : TableState α) : TableState α :=
  { st with
    selected := ((pageSlice st.data st.page st.pageSize).map getRowId).toFinset }

/-! ### Locked columns (claim C8)

Embedding of `useColumnVisibility` (source: `part_013`) and
`useColumnDragDrop` (source: `part_012`, lines 141-237). -/

structure VisColumn where
  id : String
  locked : Bool
  deriving Repr, DecidableEq

/-- Column-visibility state: the JS object mapping a column id to a boolean
(`none` = key absent). -/

def VisState := String → Option Bool

/-- Embedding of `toggleColumn` (source: `part_013`, lines 91-102): a locked column is a
no-op; otherwise the entry becomes the negation of its current value (an
absent key toggles to `true`, as JS `!undefined`). -/

def toggleColumn (columns : List VisColumn) (st : VisState) (cid : String) : VisState :=
  match columns.find? (fun c => c.id == cid) with
  | some c =>
      if c.locked then st
      else fun k => if k = cid then some (!((st cid).getD false)) else st k
  | none => fun k => if k = cid then some (!((st cid).getD false)) else st k

/-- Embedding of `hideAllColumns` (source: `part_013`, lines 112-118): rebuild the map
with `visible = locked` for every configured column (a later duplicate id
overwrites an earlier one, as JS object assignment does). -/

def hideAllColumns (columns : List VisColumn) : VisState :=
  fun k => (columns.reverse.find? (fun c => c.id == k)).map (·.locked)

/-- Embedding of `isColumnVisible` (source: `part_013`, lines 82-89): a locked column is
always visible; otherwise a column is visible unless its entry is exactly
`false`. -/

def isColumnVisible (columns : List VisColumn) (st : VisState) (cid : String) : Bool :=
  match columns.find? (fun c => c.id == cid) with
  | some c => if c.locked then true else decide (st cid ≠ some false)
  | none => decide (st cid ≠ some false)

structure DragState where
  isDragging : Bool
  draggedId : Option String
  dropIndex : Option Int
  deriving Repr, DecidableEq

def initialDragState : DragState := ⟨false, none, none⟩

/-- Embedding of `handleDragStart` (source: `part_012`, lines 152-159): dragging a locked
column is refused. -/

def handleDragStart (lockedColumns : List String) (st : DragState) (cid : String) :
    DragState :=
  if lockedColumns.contains cid then st else ⟨true, some cid, none⟩

/-- Embedding of `handleDragOver` (source: `part_012`, lines 161-176): a locked or
unknown target leaves the state unchanged; otherwise the drop index becomes
the target's index, plus one when the pointer is on the right half of the
target column. -/

def handleDragOver (lockedColumns columnOrder : List String) (st : DragState)
    (cid : String) (pointerLeftOfMidpoint : Bool) : DragState :=
  if lockedColumns.contains cid then st
  else
    match jsIndexOfAux cid columnOrder with
    | none => st
    | some ti =>
        { st with
          dropIndex := some (if pointerLeftOfMidpoint then (ti : Int) else (ti : Int) + 1) }

/-- The drop-index correction of `handleDrop` (source: `part_012`, lines
187-190): when moving rightwards the removal shifts the insertion point down
by one. -/

def dropAdjust (fromIdx dropIdx : Int) : Int :=
  if fromIdx < dropIdx then dropIdx - 1 else dropIdx

/-- Embedding of `handleDrop` (source: `part_012`, lines 178-197): produce the
`moveColumn(fromIndex, toIndex)` call (when one happens) and clear the drag
state. -/

def handleDrop (columnOrder : List String) (st : DragState) :
    Option (Int × Int) × DragState :=
  match st.draggedId, st.dropIndex with
  | some did, some dropIdx =>
      if did = "" then (none, initialDragState)
      else
        if jsIndexOf columnOrder did ≠ -1 ∧
            dropAdjust (jsIndexOf columnOrder did) dropIdx ≠ -1 ∧
            jsIndexOf columnOrder did ≠ dropAdjust (jsIndexOf columnOrder did) dropIdx then
          (some (jsIndexOf columnOrder did, dropAdjust (jsIndexOf columnOrder did) dropIdx),
            initialDragState)
        else (none, initialDragState)
  | _, _ => (none, initialDragState)

/-- Drag-state invariant: any id held as `draggedId` is unlocked. -/

def dragInvariant (lockedColumns : List String) (st : DragState) : Prop :=
  ∀ cid, st.draggedId = some cid → lockedColumns.contains cid = false

/-! ### LogViewer pipeline (claims C5, C7, C9)

Embedding of the `LogViewer` ingestion pipeline (source: `part_009`):
`normalizeLog`, `coalesceStackTraces`, the timestamp sort, `enforceMax`, the
live-push handler and the fetch effects. A log entry keeps the fields the
pipeline reads or writes; `metadata` is represented by its only touched
field `stack`, and the randomly generated `id` is omitted (no claim depends
on it). `Date` parsing is abstracted as a valuation `tsVal` on timestamp
strings, and `new Date().toISOString()` as a parameter `nowTs`. -/

structure LogEntry where
  timestamp : String
  level : String
  message : String
  category : Option String
  source : Option String
  stack : Option String
  deriving Repr, DecidableEq

structure PartialLogEntry where
  timestamp : Option String
  level : Option String
  message : Option String
  category : Option String
  source : Option String
  stack : Option String
  deriving Repr, DecidableEq

/-- JS `\s` (the whitespace characters relevant to ASCII log text). -/

def isWsChar (c : Char) : Bool :=
  c = ' ' ∨ c = '\t' ∨ c = '\n' ∨ c = '\r' ∨ c = '\x0b' ∨ c = '\x0c'

/-- JS `\w`: `[A-Za-z0-9_]`. -/

def isWordChar (c : Char) : Bool := c.isAlphanum || c = '_'

/-- Exactly `n` digits. -/

def takeDigits : Nat → List Char → Option (List Char × List Char)
  | 0, cs => some ([], cs)
  | _ + 1, [] => none
  | n + 1, c :: cs =>
      if c.isDigit then (takeDigits n cs).map (fun p => (c :: p.1, p.2)) else none

/-- One literal character. -/

def expectChar (c : Char) : List Char → Option (List Char)
  | [] => none
  | c0 :: cs => if c0 = c then some cs else none

/-- One-or-more characters of a class, greedily (the classes used below are
disjoint from what follows them, so greedy matching is exact). -/

def takeClass1 (p : Char → Bool) (cs : List Char) : Option (List Char × List Char) :=
  match cs.takeWhile p with
  | [] => none
  | t => some (t, cs.dropWhile p)

/-- The timestamp part `\d{4}-\d{2}-\d{2} \d{2}:\d{2}:\d{2}\.\d{3}` of the
embedded-prefix pattern. -/

def parseTimestampPat (cs : List Char) : Option (List Char × List Char) := do
  let (d1, r1) ← takeDigits 4 cs
  let r2 ← expectChar '-' r1
  let (d2, r3) ← takeDigits 2 r2
  let r4 ← expectChar '-' r3
  let (d3, r5) ← takeDigits 2 r4
  let r6 ← expectChar ' ' r5
  let (t1, r7) ← takeDigits 2 r6
  let r8 ← expectChar ':' r7
  let (t2, r9) ← takeDigits 2 r8
  let r10 ← expectChar ':' r9
  let (t3, r11) ← takeDigits 2 r10
  let r12 ← expectChar '.' r11
  let (t4, r13) ← takeDigits 3 r12
  return (d1 ++ '-' :: d2 ++ '-' :: d3 ++ ' ' :: t1 ++ ':' :: t2 ++ ':' :: t3 ++
    '.' :: t4, r13)

/-- The embedded-prefix regex of `normalizeLog` (source: `part_009`, line
191): `^(\d{4}-\d{2}-\d{2} \d{2}:\d{2}:\d{2}\.\d{3})\s+(\w+)\s+\[([^\]]+)\]\s+(.*)$`,
returning the captures (timestamp, level, source, rest). `.` does not match
a newline and `$` anchors at the end of input, so the rest must be
newline-free. -/

def parseEmbedded (s : String) : Option (String × String × String × String) := do
  let (ts, r1) ← parseTimestampPat s.data
  let (_, r2) ← takeClass1 isWsChar r1
  let (lvl, r3) ← takeClass1 isWordChar r2
  let (_, r4) ← takeClass1 isWsChar r3
  let r5 ← expectChar '[' r4
  let (src, r6) ← takeClass1 (fun c => c ≠ ']') r5
  let r7 ← expectChar ']' r6
  let (_, r8) ← takeClass1 isWsChar r7
  if r8.all (fun c => c ≠ '\n') then
    return (String.mk ts, String.mk lvl, String.mk src, String.mk r8)
  else none

/-- The stack-frame test `/^\s*at\s/` (source: `part_009`, lines 226 and
385): optional leading whitespace, the literal `at`, then a whitespace
character. -/

def isFrameLine (s : String) : Bool :=
  match s.data.dropWhile isWsChar with
  | c1 :: c2 :: c3 :: _ => c1 = 'a' && c2 = 't' && isWsChar c3
  | _ => false

/-- Embedding of `/^\s*Error[:\s]/i` (source: `part_009`, line 200). -/

def isErrorMsgTest (s : String) : Bool :=
  match (s.data.dropWhile isWsChar).map Char.toLower with
  | 'e' :: 'r' :: 'r' :: 'o' :: 'r' :: c :: _ => c = ':' ∨ isWsChar c
  | _ => false

def hasPrefixCL : List Char → List Char → Bool
  | [], _ => true
  | _ :: _, [] => false
  | a :: as, b :: bs => a = b && hasPrefixCL as bs

def containsSub (needle : List Char) : List Char → Bool
  | [] => hasPrefixCL needle []
  | c :: cs => hasPrefixCL needle (c :: cs) || containsSub needle cs

/-- Embedding of `/uncaught exception/i` (source: `part_009`, line 200). -/

def isUncaughtException (s : String) : Bool :=
  containsSub "uncaught exception".data (s.data.map Char.toLower)

/-- JS `a || b` on possibly-undefined strings (empty string is falsy). -/

def jsOrStr (a b : Option String) : Option String :=
  match a with
  | some s => if s = "" then b else some s
  | none => b

/-- JS `a || d` with a definite fallback. -/

def jsOrStrD (a : Option String) (d : String) : String :=
  match a with
  | some s => if s = "" then d else s
  | none => d

/-- The `source` after the embedded-prefix extraction of `normalizeLog`. -/

def normSource (log : PartialLogEntry) : Option String :=
  match log.message with
  | some m =>
      if m = "" then log.source
      else
        match parseEmbedded m with
        | some (_, _, src, _) => if src = "" then log.source else some src
        | none => log.source
  | none => log.source

/-- The `message` after the embedded-prefix extraction of `normalizeLog`. -/

def normMessage (log : PartialLogEntry) : Option String :=
  match log.message with
  | some m =>
      if m = "" then log.message
      else
        match parseEmbedded m with
        | some (_, _, _, msg) => if msg = "" then log.message else some msg
        | none => log.message
  | none => log.message

/-- Embedding of `normalizeLog` (source: `part_009`, lines 189-214); `nowTs` stands for
`new Date().toISOString()`. -/

def normalizeLog (nowTs : String) (log : PartialLogEntry) : LogEntry :=
  let embedded :=
    match log.message with
    | some m => if m = "" then none else parseEmbedded m
    | none => none
  let timestamp1 :=
    match embedded with
    | some (ts, _, _, _) => if ts = "" then log.timestamp else some ts
    | none => log.timestamp
  let level1 : Option String :=
    match embedded with
    | some (_, lvl, _, _) =>
        some ((jsOrStrD (jsOrStr (some lvl) log.level) "info").toLower)
    | none => log.level
  let category1 :=
    match embedded with
    | some _ => jsOrStr log.category (normSource log)
    | none => log.category
  let level2 :=
    match normMessage log with
    | some m =>
        if m ≠ "" ∧ (isErrorMsgTest m || isUncaughtException m) then some "error"
        else level1
    | none => level1
  { timestamp := jsOrStrD timestamp1 nowTs
    level := jsOrStrD level2 "info"
    message := (normMessage log).getD ""
    category := jsOrStr category1 (normSource log)
    source := normSource log
    stack := log.stack }

/-- Stack concatenation
`prev.metadata?.stack ? prev.metadata.stack + "\n" + msg : msg` (source:
`part_009`, lines 229 and 388); an empty stored stack is falsy. -/

def appendStack (old : Option String) (msg : String) : String :=
  match old with
  | some s => if s = "" then msg else s ++ "\n" ++ msg
  | none => msg

/-- One iteration of `coalesceStackTraces` (source: `part_009`, lines
222-239): a normalized stack-frame line is folded into the last
accumulated entry's `metadata.stack` when one exists. -/

def coalesceStep (nowTs : String) (out : List LogEntry) (e : PartialLogEntry) :
    List LogEntry :=
  if isFrameLine (normalizeLog nowTs e).message then
    match out.getLast? with
    | some prev =>
        out.dropLast ++
          [{ prev with stack := some (appendStack prev.stack (normalizeLog nowTs e).message) }]
    | none => out ++ [normalizeLog nowTs e]
  else out ++ [normalizeLog nowTs e]

def coalesceStackTraces (nowTs : String) (entries : List PartialLogEntry) :
    List LogEntry :=
  entries.foldl (coalesceStep nowTs) []

/-- Embedding of `enforceMax` (source: `part_009`, lines 216-219): once the (nonzero —
JS `!maxEntries`) cap is exceeded, keep the last `maxEntries` entries
(`entries.slice(-maxEntries)`). -/

def enforceMax (maxEntries : Nat) (entries : List LogEntry) : List LogEntry :=
  if maxEntries = 0 ∨ entries.length ≤ maxEntries then entries
  else entries.drop (entries.length - maxEntries)

/-- Stable insertion into an ascending-by-key list: an element arriving
later stays after equal keys, matching the stability JS `sort`
guarantees. -/

def insertByKey (key : LogEntry → Int) (x : LogEntry) : List LogEntry → List LogEntry
  | [] => [x]
  | y :: ys => if key y ≤ key x then y :: insertByKey key x ys else x :: y :: ys

/-- The timestamp sort of the update paths (source: `part_009`, lines
245-248, 310-313, 342-345): stable sort by `new Date(timestamp).getTime()`
(embedded as `tsVal`), descending when `newestFirst`. -/

def sortByTimestamp (tsVal : String → Int) (newestFirst : Bool)
    (l : List LogEntry) : List LogEntry :=
  l.foldl
    (fun acc e =>
      insertByKey
        (fun a => if newestFirst then -(tsVal a.timestamp) else tsVal a.timestamp) e acc)
    []

/-- The shared update pipeline of the one-shot fetch / externally-supplied
logs / auto-refresh paths (source: `part_009`, lines 242-252 and 332-351):
normalize+coalesce, sort by timestamp, then cap. -/

def fetchPipeline (tsVal : String → Int) (newestFirst : Bool) (maxEntries : Nat)
    (nowTs : String) (entries : List PartialLogEntry) : List LogEntry :=
  enforceMax maxEntries
    (sortByTimestamp tsVal newestFirst (coalesceStackTraces nowTs entries))

/-- The live-push handler (source: `part_009`, lines 378-403): a frame line
merges into the last entry, anything else is appended; both paths are
capped. -/

def livePush (maxEntries : Nat) (nowTs : String) (prev : List LogEntry)
    (raw : PartialLogEntry) : List LogEntry :=
  if isFrameLine (normalizeLog nowTs raw).message then
    match prev.getLast? with
    | some last =>
        enforceMax maxEntries
          (prev.dropLast ++
            [{ last with
                stack := some (appendStack last.stack (normalizeLog nowTs raw).message) }])
    | none => enforceMax maxEntries (prev ++ [normalizeLog nowTs raw])
  else enforceMax maxEntries (prev ++ [normalizeLog nowTs raw])

structure LogFile where
  filename : Option String
  name : Option String
  size : Int
  modified : String
  deriving Repr, DecidableEq

structure ViewerState where
  logs : List LogEntry
  logFiles : List LogFile
  loading : Bool

/-- The category-change / mount fetch effect for logs (source: `part_009`,
lines 332-351): on success the pipeline output replaces the log list; on
rejection the error is caught and logged (second component) and no state
but `loading` changes; `loading` clears in `finally` either way. The
function is total: nothing propagates. -/

def runLogsFetch (tsVal : String → Int) (newestFirst : Bool) (maxEntries : Nat)
    (nowTs : String) (st : ViewerState)
    (result : Except Unit (List PartialLogEntry)) : ViewerState × Bool :=
  match result with
  | .ok fetched =>
      ({ st with
          logs := fetchPipeline tsVal newestFirst maxEntries nowTs fetched,
          loading := false }, false)
  | .error _ => ({ st with loading := false }, true)

/-- The archives fetch effect (source: `part_009`, lines 352-368). -/

def runArchivesFetch (st : ViewerState) (result : Except Unit (List LogFile)) :
    ViewerState × Bool :=
  match result with
  | .ok archives => ({ st with logFiles := archives, loading := false }, false)
  | .error _ => ({ st with loading := false }, true)

/-- The 15 pushed/fetched entries of the eviction scenario: strictly
increasing timestamps. -/

def evictionEntry (ts msg : String) : PartialLogEntry :=
  ⟨some ts, some "info", some msg, none, none, none⟩

def evictionEntries : List PartialLogEntry :=
  [evictionEntry "101" "m1", evictionEntry "102" "m2", evictionEntry "103" "m3",
   evictionEntry "104" "m4", evictionEntry "105" "m5", evictionEntry "106" "m6",
   evictionEntry "107" "m7", evictionEntry "108" "m8", evictionEntry "109" "m9",
   evictionEntry "110" "m10", evictionEntry "111" "m11", evictionEntry "112" "m12",
   evictionEntry "113" "m13", evictionEntry "114" "m14", evictionEntry "115" "m15"]

/-- Timestamp valuation for the eviction scenario (the timestamps are
numeric strings, ordered exactly as `Date.parse` orders the corresponding
instants). -/

def evictionTsVal (s : String) : Int :=
  (s.data.foldl (fun acc c => acc * 10 + (c.toNat - '0'.toNat)) 0 : Nat)

/-! ## Theorems -/

lemma jsIndexOfAux_eq_some_of_mem {x : String} {l : List String} (h : x ∈ l) :
    ∃ i, jsIndexOfAux x l = some i := by
  induction l with
  | nil => cases h
  | cons c rest ih =>
    by_cases hc : c = x
    · exact ⟨0, by simp [jsIndexOfAux, hc]⟩
    · rcases List.mem_cons.mp h with rfl | hm
      · exact absurd rfl hc
      · obtain ⟨i, hi⟩ := ih hm
        exact ⟨i + 1, by simp [jsIndexOfAux, hc, hi]⟩

lemma jsIndexOf_nonneg_of_mem {x : String} {l : List String} (h : x ∈ l) :
    0 ≤ jsIndexOf l x := by
  obtain ⟨i, hi⟩ := jsIndexOfAux_eq_some_of_mem h
  simp [jsIndexOf, hi]

lemma jsIndexOf_cons_self (c : String) (l : List String) : jsIndexOf (c :: l) c = 0 := by
  simp [jsIndexOf, jsIndexOfAux]

lemma jsIndexOf_cons_of_mem {b : String} {l : List String} (hb : b ∈ l) {c : String}
    (hcb : c ≠ b) : jsIndexOf (c :: l) b = jsIndexOf l b + 1 := by
  obtain ⟨i, hi⟩ := jsIndexOfAux_eq_some_of_mem hb
  simp [jsIndexOf, jsIndexOfAux, hcb, hi]

/-- In a duplicate-free list, earlier elements have strictly smaller
`indexOf` values. -/
lemma nodup_pairwise_jsIndexOf {l : List String} (h : l.Nodup) :
    l.Pairwise (fun a b => jsIndexOf l a < jsIndexOf l b) := by
  induction l with
  | nil => simp
  | cons c cs ih =>
    rw [List.nodup_cons] at h
    obtain ⟨hc, hcs⟩ := h
    rw [List.pairwise_cons]
    constructor
    · intro b hb
      have hcb : c ≠ b := fun e => hc (e ▸ hb)
      rw [jsIndexOf_cons_self, jsIndexOf_cons_of_mem hb hcb]
      have := jsIndexOf_nonneg_of_mem hb
      omega
    · refine List.Pairwise.imp_of_mem ?_ (ih hcs)
      intro a b ha hb hab
      have hca : c ≠ a := fun e => hc (e ▸ ha)
      have hcb : c ≠ b := fun e => hc (e ▸ hb)
      rw [jsIndexOf_cons_of_mem ha hca, jsIndexOf_cons_of_mem hb hcb]
      omega

lemma mem_spliceIn {a x : String} : ∀ {n : Nat} {l : List String},
    a ∈ spliceIn n x l ↔ a = x ∨ a ∈ l := by
  intro n
  induction n with
  | zero => intro l; simp [spliceIn]
  | succ n ih =>
    intro l
    cases l with
    | nil => simp [spliceIn]
    | cons c rest =>
      simp only [spliceIn, List.mem_cons, ih]
      tauto

lemma length_spliceIn {x : String} : ∀ {n : Nat} {l : List String},
    (spliceIn n x l).length = l.length + 1 := by
  intro n
  induction n with
  | zero => intro l; simp [spliceIn]
  | succ n ih =>
    intro l
    cases l with
    | nil => simp [spliceIn]
    | cons c rest => simp [spliceIn, ih]

lemma spliceIn_perm (x : String) : ∀ (n : Nat) (l : List String),
    (spliceIn n x l).Perm (x :: l) := by
  intro n
  induction n with
  | zero => intro l; exact List.Perm.refl _
  | succ n ih =>
    intro l
    cases l with
    | nil => exact List.Perm.refl _
    | cons c rest => exact ((ih rest).cons c).trans (List.Perm.swap x c rest)

lemma insertPos_congr {p q : String → Bool} : ∀ {l : List String},
    (∀ x ∈ l, p x = q x) → insertPos p l = insertPos q l := by
  intro l
  induction l with
  | nil => intro _; rfl
  | cons c rest ih =>
    intro h
    have hc := h c (List.mem_cons_self c rest)
    simp only [insertPos, hc]
    by_cases hq : q c
    · simp [hq]
    · simp [hq, ih (fun x hx => h x (List.mem_cons_of_mem c hx))]

lemma mem_insertMissingCode {a m : String} {canonical res : List String} :
    a ∈ insertMissingCode canonical res m ↔ a = m ∨ a ∈ res := by
  unfold insertMissingCode
  exact mem_spliceIn

lemma mem_insertMissingSpec {a m : String} {canonical stored res : List String} :
    a ∈ insertMissingSpec canonical stored res m ↔ a = m ∨ a ∈ res := by
  unfold insertMissingSpec
  exact mem_spliceIn

lemma mem_foldl_insertCode {canonical : List String} :
    ∀ {ms cur : List String} {a : String},
      a ∈ ms.foldl (insertMissingCode canonical) cur ↔ a ∈ ms ∨ a ∈ cur := by
  intro ms
  induction ms with
  | nil => simp
  | cons m ms ih =>
    intro cur a
    rw [List.foldl_cons, ih, mem_insertMissingCode]
    simp only [List.mem_cons]
    tauto

lemma length_foldl_insertCode {canonical : List String} :
    ∀ {ms cur : List String},
      (ms.foldl (insertMissingCode canonical) cur).length = cur.length + ms.length := by
  intro ms
  induction ms with
  | nil => simp
  | cons m ms ih =>
    intro cur
    rw [List.foldl_cons, ih]
    unfold insertMissingCode
    rw [length_spliceIn]
    simp [List.length_cons]
    omega

/-- Key refinement step: as long as every element already in the accumulator is
either a surviving stored id or an already-inserted missing id of strictly
smaller canonical index than every remaining missing id, the code's insertion
position (scan over all accumulated elements) agrees with the spec's insertion
position (scan over surviving elements only). -/
lemma foldl_insertCode_eq_insertSpec (canonical stored : List String) :
    ∀ (ms cur : List String),
      ms.Pairwise (fun a b => jsIndexOf canonical a < jsIndexOf canonical b) →
      (∀ x ∈ cur, stored.contains x = true ∨
        ∀ m ∈ ms, jsIndexOf canonical x < jsIndexOf canonical m) →
      ms.foldl (insertMissingCode canonical) cur =
        ms.foldl (insertMissingSpec canonical stored) cur := by
  intro ms
  induction ms with
  | nil => intro cur _ _; rfl
  | cons m ms ih =>
    intro cur hp hinv
    rw [List.pairwise_cons] at hp
    obtain ⟨hm, hp'⟩ := hp
    rw [List.foldl_cons, List.foldl_cons]
    have hstep : insertMissingCode canonical cur m = insertMissingSpec canonical stored cur m := by
      unfold insertMissingCode insertMissingSpec
      congr 1
      apply insertPos_congr
      intro x hx
      rcases hinv x hx with hxs | hlt
      · simp only [hxs, Bool.true_and]
      · have h1 : jsIndexOf canonical x < jsIndexOf canonical m :=
          hlt m (List.mem_cons_self m ms)
        have h2 : ¬ (jsIndexOf canonical m < jsIndexOf canonical x) := by omega
        simp only [decide_eq_false h2, Bool.and_false]
    rw [hstep]
    refine ih _ hp' ?_
    intro x hx
    rcases mem_insertMissingSpec.mp hx with rfl | hxc
    · exact Or.inr hm
    · rcases hinv x hxc with hxs | hlt
      · exact Or.inl hxs
      · exact Or.inr fun m' hm' => hlt m' (List.mem_cons_of_mem m hm')

lemma mem_reconcileOrder_of_mem_canonical {canonical stored : List String} {c : String}
    (hc : c ∈ canonical) : c ∈ reconcileOrder canonical stored := by
  by_cases hs : stored.contains c
  · have hcs : c ∈ stored := by simpa using hs
    have hv : c ∈ validStoredOf canonical stored :=
      List.mem_filter.mpr ⟨hcs, by simpa using hc⟩
    rw [reconcileOrder]
    by_cases hms : (missingOf canonical stored).isEmpty
    · rw [if_pos hms]
      have hvne : ¬ (validStoredOf canonical stored).isEmpty = true := by
        rw [List.isEmpty_iff]
        intro h0
        rw [h0] at hv
        cases hv
      rw [if_neg hvne]
      exact hv
    · rw [if_neg hms]
      exact mem_foldl_insertCode.mpr (Or.inr hv)
  · have hsf : stored.contains c = false := by
      cases hcc : stored.contains c
      · rfl
      · exact absurd hcc hs
    have hm : c ∈ missingOf canonical stored :=
      List.mem_filter.mpr ⟨hc, by rw [hsf]; rfl⟩
    rw [reconcileOrder]
    have hmsne : ¬ (missingOf canonical stored).isEmpty = true := by
      rw [List.isEmpty_iff]
      intro h0
      rw [h0] at hm
      cases hm
    rw [if_neg hmsne]
    exact mem_foldl_insertCode.mpr (Or.inl hm)

lemma mem_canonical_of_mem_reconcileOrder {canonical stored : List String} {x : String}
    (hx : x ∈ reconcileOrder canonical stored) : x ∈ canonical := by
  rw [reconcileOrder] at hx
  by_cases hms : (missingOf canonical stored).isEmpty
  · rw [if_pos hms] at hx
    by_cases hvs : (validStoredOf canonical stored).isEmpty
    · rw [if_pos hvs] at hx
      exact hx
    · rw [if_neg hvs] at hx
      have := (List.mem_filter.mp hx).2
      simpa using this
  · rw [if_neg hms] at hx
    rcases mem_foldl_insertCode.mp hx with hxm | hxv
    · exact (List.mem_filter.mp hxm).1
    · have := (List.mem_filter.mp hxv).2
      simpa using this

/-- C1: with a duplicate-free canonical order, the code's reconciliation
(scanning all accumulated elements for the insertion point) coincides with
the spec's description (inserting before the first *surviving* element of
larger canonical index), and the spec's concrete example holds. -/
theorem columnOrder_reconciliation_matches_spec (canonical stored : List String)
    (h : canonical.Nodup) :
    reconcileOrder canonical stored = reconcileSpec canonical stored ∧
    reconcileOrder ["A", "B", "C", "D"] ["B", "A"] = ["B", "A", "C", "D"] := by
  refine ⟨?_, by decide⟩
  by_cases hms : (missingOf canonical stored).isEmpty
  · have hnil : missingOf canonical stored = [] := by simpa [List.isEmpty_iff] using hms
    rw [reconcileOrder, reconcileSpec, hnil]
    simp
  · have hp : (missingOf canonical stored).Pairwise
        (fun a b => jsIndexOf canonical a < jsIndexOf canonical b) :=
      (nodup_pairwise_jsIndexOf h).filter _
    have hi : ∀ x ∈ validStoredOf canonical stored, stored.contains x = true ∨
        ∀ m ∈ missingOf canonical stored, jsIndexOf canonical x < jsIndexOf canonical m := by
      intro x hx
      left
      have := (List.mem_filter.mp hx).1
      simpa using this
    have heq := foldl_insertCode_eq_insertSpec canonical stored
      (missingOf canonical stored) (validStoredOf canonical stored) hp hi
    have hne : ¬ ((missingOf canonical stored).foldl (insertMissingSpec canonical stored)
        (validStoredOf canonical stored)).isEmpty = true := by
      rw [← heq, List.isEmpty_iff]
      intro h0
      have hlen := @length_foldl_insertCode canonical (missingOf canonical stored)
        (validStoredOf canonical stored)
      rw [h0] at hlen
      simp only [List.length_nil] at hlen
      have hmslen : (missingOf canonical stored).length = 0 := by omega
      exact hms (by simp [List.length_eq_zero.mp hmslen])
    rw [reconcileOrder, reconcileSpec, if_neg hms, if_neg hne]
    exact heq

/-- C2: reconciling a second time against the same canonical order changes
nothing. -/
theorem columnOrder_reconciliation_idempotent (canonical stored : List String) :
    reconcileOrder canonical (reconcileOrder canonical stored) =
      reconcileOrder canonical stored := by
  have ha : ∀ c ∈ canonical, c ∈ reconcileOrder canonical stored :=
    fun _ hc => mem_reconcileOrder_of_mem_canonical hc
  have hb : ∀ x ∈ reconcileOrder canonical stored, x ∈ canonical :=
    fun _ hx => mem_canonical_of_mem_reconcileOrder hx
  have hm0 : missingOf canonical (reconcileOrder canonical stored) = [] := by
    rw [missingOf, List.filter_eq_nil_iff]
    intro a haa
    have := ha a haa
    simp [this]
  have hv0 : validStoredOf canonical (reconcileOrder canonical stored) =
      reconcileOrder canonical stored := by
    rw [validStoredOf, List.filter_eq_self]
    intro a haa
    have := hb a haa
    simpa using this
  conv_lhs => rw [reconcileOrder]
  rw [hm0, hv0]
  simp only [List.isEmpty_nil, if_true]
  by_cases hre : (reconcileOrder canonical stored).isEmpty
  · have hrnil : reconcileOrder canonical stored = [] := by
      simpa [List.isEmpty_iff] using hre
    have hcnil : canonical = [] := by
      cases hc : canonical with
      | nil => rfl
      | cons c cs =>
        have := ha c (by rw [hc]; exact List.mem_cons_self c cs)
        rw [hrnil] at this
        cases this
    rw [if_pos hre, hrnil, hcnil]
  · rw [if_neg hre]

/-- C1 witness. -/
theorem columnOrder_reconciliation_matches_spec_witness :
    reconcileOrder ["A", "B", "C", "D"] ["B", "A"] =
        reconcileSpec ["A", "B", "C", "D"] ["B", "A"] ∧
      reconcileOrder ["A", "B", "C", "D"] ["B", "A"] = ["B", "A", "C", "D"] :=
  columnOrder_reconciliation_matches_spec ["A", "B", "C", "D"] ["B", "A"] (by decide)

lemma perm_get_take_drop {l : List String} : ∀ {n : Nat} {x : String},
    l.get? n = some x → l.Perm (x :: (l.take n ++ l.drop (n + 1))) := by
  induction l with
  | nil => intro n x h; cases h
  | cons c rest ih =>
    intro n x h
    cases n with
    | zero =>
      simp only [List.get?] at h
      cases h
      simp
    | succ n =>
      simp only [List.get?] at h
      have hr := ih h
      have h1 : (c :: rest).Perm (c :: (x :: (rest.take n ++ rest.drop (n + 1)))) :=
        hr.cons c
      refine h1.trans ?_
      simpa using List.Perm.swap x c (rest.take n ++ rest.drop (n + 1))

/-- C10: `moveColumn` permutes the order list (same elements, same
multiplicities) for arbitrary integer indices; equal indices and a
`fromIndex` at or past the end leave the list unchanged. -/
theorem moveColumn_preserves_multiset (l : List String) (fromIndex toIndex : Int) :
    (moveColumn l fromIndex toIndex).Perm l ∧
    moveColumn l fromIndex fromIndex = l ∧
    ((l.length : Int) ≤ fromIndex → moveColumn l fromIndex toIndex = l) := by
  have hnone : ∀ {s : Nat}, l.get? s = none →
      l.take s ++ l.drop (s + 1) = l := by
    intro s hs
    have hls : l.length ≤ s := List.get?_eq_none.mp hs
    rw [List.take_of_length_le hls, List.drop_eq_nil_of_le (by omega)]
    simp
  refine ⟨?_, by rw [moveColumn]; simp, ?_⟩
  · rw [moveColumn]
    by_cases hft : fromIndex = toIndex
    · rw [if_pos hft]
    · rw [if_neg hft]
      cases hg : l.get? (jsSpliceStart l.length fromIndex) with
      | some removed =>
        exact (spliceIn_perm removed _ _).trans (perm_get_take_drop hg).symm
      | none => rw [hnone hg]
  · intro hfl
    by_cases hft : fromIndex = toIndex
    · rw [moveColumn, if_pos hft]
    · rw [moveColumn, if_neg hft]
      have hs : jsSpliceStart l.length fromIndex = l.length := by
        rw [jsSpliceStart, if_neg (by omega)]
        have : l.length ≤ fromIndex.toNat := by omega
        omega
      have hg : l.get? (jsSpliceStart l.length fromIndex) = none := by
        rw [hs]
        exact List.get?_eq_none.mpr (le_refl _)
      rw [hg, hnone hg]

/-- C10 witness. -/
theorem moveColumn_preserves_multiset_witness :
    (moveColumn ["a", "b", "c"] 5 0).Perm ["a", "b", "c"] ∧
      moveColumn ["a", "b", "c"] 5 0 = ["a", "b", "c"] := by
  have h := moveColumn_preserves_multiset ["a", "b", "c"] 5 0
  exact ⟨h.1, h.2.2 (by decide)⟩

lemma totalPages_pos (st : PgState) : 1 ≤ totalPages st := le_max_left _ _

lemma totalPages_page_irrelevant (st : PgState) (p : Nat) :
    totalPages { st with page := p } = totalPages st := rfl

lemma clampPage_bounds (p : Int) {tp : Nat} (htp : 1 ≤ tp) :
    1 ≤ clampPage p tp ∧ clampPage p tp ≤ tp := by
  rw [clampPage]
  constructor <;> omega

lemma reactiveClamp_invariant {st : PgState} (hp : 1 ≤ st.page)
    (hps : 1 ≤ st.pageSize) : pgInvariant (reactiveClamp st) := by
  rw [reactiveClamp]
  by_cases hlt : totalPages st < st.page
  · rw [if_pos hlt]
    refine ⟨?_, ?_, hps⟩
    · simp only [totalPages_page_irrelevant]
      omega
    · simp only [totalPages_page_irrelevant]
      have := totalPages_pos st
      omega
  · rw [if_neg hlt]
    exact ⟨hp, by omega, hps⟩

lemma pgStep_invariant {st : PgState} (hp : 1 ≤ st.page) (hps : 1 ≤ st.pageSize)
    {e : PageEvent} (hv : validEvent e) : pgInvariant (pgStep st e) := by
  rw [pgStep]
  have hbase : 1 ≤ (applyEvent st e).page ∧ 1 ≤ (applyEvent st e).pageSize := by
    cases e with
    | setPage p => exact ⟨(clampPage_bounds p (totalPages_pos st)).1, hps⟩
    | setPageSize s => exact ⟨le_refl 1, hv⟩
    | nextPage => exact ⟨(clampPage_bounds _ (totalPages_pos st)).1, hps⟩
    | prevPage => exact ⟨(clampPage_bounds _ (totalPages_pos st)).1, hps⟩
    | firstPage => exact ⟨(clampPage_bounds _ (totalPages_pos st)).1, hps⟩
    | lastPage => exact ⟨(clampPage_bounds _ (totalPages_pos st)).1, hps⟩
    | dataChange n => exact ⟨hp, hps⟩
  exact reactiveClamp_invariant hbase.1 hbase.2

lemma pgInvariant_foldl : ∀ (events : List PageEvent) (st : PgState),
    pgInvariant st → (∀ e ∈ events, validEvent e) →
    pgInvariant (events.foldl pgStep st) := by
  intro events
  induction events with
  | nil =>
    intro st hinv _
    exact hinv
  | cons e evs ih =>
    intro st hinv hv
    rw [List.foldl_cons]
    exact ih _ (pgStep_invariant hinv.1 hinv.2.2 (hv e (List.mem_cons_self e evs)))
      (fun e' he' => hv e' (List.mem_cons_of_mem e he'))

/-- C3: starting from mount (page 1) with a positive page size, after any
sequence of navigation, page-size and data-length-change events (page sizes
set to at least 1) the page satisfies
`1 ≤ page ≤ max 1 ⌈n / pageSize⌉`; moreover `setPage` commits exactly the
clamp of its argument into that range, and when the page count drops below
the current page the reactive effect silently clamps the page down. -/
theorem pagination_page_in_range (events : List PageEvent) (n0 pageSize0 : Nat)
    (hps : 1 ≤ pageSize0) (hv : ∀ e ∈ events, validEvent e) :
    pgInvariant (events.foldl pgStep (pgInit n0 pageSize0)) ∧
    (∀ (st : PgState) (p : Int),
      (applyEvent st (.setPage p)).page = clampPage p (totalPages st)) ∧
    (∀ st : PgState, totalPages st < st.page →
      (reactiveClamp st).page = max 1 (totalPages st)) := by
  refine ⟨?_, fun _ _ => rfl, fun st hlt => by rw [reactiveClamp, if_pos hlt]⟩
  exact pgInvariant_foldl events _ ⟨le_refl 1, totalPages_pos _, hps⟩ hv

/-- C3 witness: six events over a 7-row dataset with page size 3, ending in a
shrink of the dataset that forces the reactive clamp. -/
theorem pagination_page_in_range_witness :
    pgInvariant
      ([PageEvent.setPage 9, PageEvent.nextPage, PageEvent.setPageSize 3,
        PageEvent.lastPage, PageEvent.dataChange 4, PageEvent.prevPage].foldl
        pgStep (pgInit 7 25)) := by
  have h := pagination_page_in_range
    [PageEvent.setPage 9, PageEvent.nextPage, PageEvent.setPageSize 3,
      PageEvent.lastPage, PageEvent.dataChange 4, PageEvent.prevPage] 7 25
    (by omega)
    (by
      intro e he
      fin_cases he <;> simp [validEvent])
  exact h.1

/-- C4 counterexample: with `minWidth` unconfigured (effective floor 50) and
`maxWidth = 10 < 50`, a pointer-move during an active resize at start width
100 with zero delta produces width 10, which violates the claimed bound
`resultingWidth ≥ minWidth`. -/
theorem resizeWidth_claim_counterexample :
    pointerMoveWidth true 0 0 100 none (some 10) = some 10 ∧
    ¬ (effMinWidth none ≤ 10) := by
  constructor
  · norm_num [pointerMoveWidth, resizeWidth, effMinWidth]
  · norm_num [effMinWidth]

/-- C4 amended: provided every configured `maxWidth` is nonzero and at least
the effective minimum width, any width produced by a pointer-move during an
active resize equals `clamp(startWidth + delta, minWidth, maxWidth ?? ∞)`,
is at least the minimum width, and is at most any configured maximum. -/
theorem resizeWidth_clamped (hasDragged : Bool) (startX currentX startWidth : ℚ)
    (cfgMin cfgMax : Option ℚ)
    (hmax : ∀ m, cfgMax = some m → effMinWidth cfgMin ≤ m ∧ m ≠ 0) (w : ℚ)
    (hw : pointerMoveWidth hasDragged startX currentX startWidth cfgMin cfgMax = some w) :
    w = clampSpec (startWidth + (currentX - startX)) (effMinWidth cfgMin) cfgMax ∧
    effMinWidth cfgMin ≤ w ∧
    ∀ m, cfgMax = some m → w ≤ m := by
  have hwr : w = resizeWidth startWidth (currentX - startX) cfgMin cfgMax := by
    rw [pointerMoveWidth] at hw
    by_cases hc : (!hasDragged) ∧ |currentX - startX| < 3
    · rw [if_pos hc] at hw
      cases hw
    · rw [if_neg hc] at hw
      exact (Option.some.inj hw).symm
  subst hwr
  cases cfgMax with
  | none =>
    refine ⟨rfl, le_max_left _ _, ?_⟩
    intro m hm
    cases hm
  | some m =>
    obtain ⟨hlo, hnz⟩ := hmax m rfl
    rw [resizeWidth, clampSpec, if_neg hnz]
    refine ⟨?_, ?_, ?_⟩
    · rw [max_min_distrib_left, max_eq_right hlo]
    · exact le_min hlo (le_max_left _ _)
    · intro m' hm'
      cases hm'
      exact min_le_left _ _

/-- C4 witness. -/
theorem resizeWidth_clamped_witness :
    (150 : ℚ) = clampSpec (100 + (200 - 0)) (effMinWidth (some 50)) (some 150) ∧
    effMinWidth (some 50) ≤ (150 : ℚ) ∧
    ∀ m, (some (150 : ℚ)) = some m → (150 : ℚ) ≤ m :=
  resizeWidth_clamped true 0 200 100 (some 50) (some 150)
    (by
      intro m hm
      cases hm
      norm_num [effMinWidth])
    150 (by norm_num [pointerMoveWidth, resizeWidth, effMinWidth])

/-- C6: `selectAll` makes the selection exactly the id set of the current
page's slice (membership coincides with the slice's ids, not the full
dataset's), and page navigation leaves the selection set unchanged; on a
concrete 3-row dataset with page size 2, page 1, the selection is
`{r1, r2}`, not all three ids. -/
theorem selectAll_scoped_to_page {α : Type} (getRowId : α → String)
    (st : TableState α) (e : PageEvent) :
    (selectAll getRowId st).selected =
      ((pageSlice st.data st.page st.pageSize).map getRowId).toFinset ∧
    (∀ x, x ∈ (selectAll getRowId st).selected ↔
      x ∈ (pageSlice st.data st.page st.pageSize).map getRowId) ∧
    (navStep st e).selected = st.selected ∧
    (selectAll (fun s => s) ⟨["r1", "r2", "r3"], 1, 2, ∅⟩).selected = {"r1", "r2"} := by
  refine ⟨rfl, ?_, rfl, by decide⟩
  intro x
  simp [selectAll]

lemma get?_of_jsIndexOfAux {x : String} : ∀ {l : List String} {i : Nat},
    jsIndexOfAux x l = some i → l.get? i = some x := by
  intro l
  induction l with
  | nil => intro i h; cases h
  | cons c rest ih =>
    intro i h
    by_cases hc : c = x
    · simp only [jsIndexOfAux, if_pos hc] at h
      cases h
      simp [hc]
    · simp only [jsIndexOfAux, if_neg hc, Option.map_eq_some'] at h
      obtain ⟨j, hj, rfl⟩ := h
      simpa using ih hj

lemma find?_id_eq_of_nodup : ∀ {columns : List VisColumn},
    (columns.map (·.id)).Nodup → ∀ {c : VisColumn}, c ∈ columns →
    columns.find? (fun c0 => c0.id == c.id) = some c := by
  intro columns
  induction columns with
  | nil => intro _ c hc; cases hc
  | cons d rest ih =>
    intro hnd c hc
    rw [List.map_cons, List.nodup_cons] at hnd
    obtain ⟨hd, hrest⟩ := hnd
    rcases List.mem_cons.mp hc with rfl | hcr
    · rw [List.find?_cons_of_pos _ (by simp)]
    · have hne : d.id ≠ c.id := by
        intro he
        exact hd (he ▸ List.mem_map_of_mem (·.id) hcr)
      rw [List.find?_cons_of_neg _ (by simpa using hne)]
      exact ih hrest hcr

/-- C8 counterexample: with order `[A, L, B]` and `L` locked, dragging the
unlocked `B`, hovering the right half of the unlocked `A`, and dropping
yields the call `moveColumn(2, 1)` — whose target index 1 is exactly the
locked column `L`'s current position, refuting "no moveColumn call …
targets a locked column's position via drag". -/
theorem lockedColumn_dropTarget_counterexample :
    (handleDrop ["A", "L", "B"]
        (handleDragOver ["L"] ["A", "L", "B"]
          (handleDragStart ["L"] initialDragState "B") "A" false)).1 = some (2, 1) ∧
    ["A", "L", "B"].get? 1 = some "L" ∧
    ("L" ∈ (["L"] : List String)) := by
  refine ⟨by decide, by decide, by decide⟩

/-- C8 amended: `toggleColumn` on a locked column leaves the visibility state
unchanged; after `hideAllColumns` (with duplicate-free column ids) a
column's visibility equals its locked flag (locked stay visible, all others
are hidden); drag-start on a locked id and drag-over on a locked id leave
the drag state unchanged; every handler preserves the unlocked-draggedId
invariant; and every drag-initiated `moveColumn` call's *source* index holds
the unlocked dragged id (the *target* index may coincide with a locked
column's position — see the counterexample). -/
theorem lockedColumn_invariants
    (columns : List VisColumn) (vst : VisState) (cid : String) (c : VisColumn)
    (hfind : columns.find? (fun c0 => c0.id == cid) = some c)
    (hlocked : c.locked = true)
    (hnodup : (columns.map (·.id)).Nodup) (c2 : VisColumn) (hc2 : c2 ∈ columns)
    (lockedColumns columnOrder : List String) (dst : DragState) (cid2 : String)
    (hcid2 : lockedColumns.contains cid2 = true) (leftHalf : Bool)
    (hinv : dragInvariant lockedColumns dst) :
    toggleColumn columns vst cid = vst ∧
    isColumnVisible columns (hideAllColumns columns) c2.id = c2.locked ∧
    handleDragStart lockedColumns dst cid2 = dst ∧
    handleDragOver lockedColumns columnOrder dst cid2 leftHalf = dst ∧
    (∀ cid3, dragInvariant lockedColumns (handleDragStart lockedColumns dst cid3)) ∧
    (∀ cid3 lh,
      dragInvariant lockedColumns (handleDragOver lockedColumns columnOrder dst cid3 lh)) ∧
    dragInvariant lockedColumns (handleDrop columnOrder dst).2 ∧
    (∀ fromIdx toIdx, (handleDrop columnOrder dst).1 = some (fromIdx, toIdx) →
      ∃ did, dst.draggedId = some did ∧ lockedColumns.contains did = false ∧
        columnOrder.get? fromIdx.toNat = some did) := by
  have hdropClear : (handleDrop columnOrder dst).2 = initialDragState := by
    rw [handleDrop]
    rcases dst.draggedId with _ | did
    · rfl
    · rcases dst.dropIndex with _ | di
      · rfl
      · dsimp only
        by_cases he : did = ""
        · rw [if_pos he]
        · rw [if_neg he]
          split
          · rfl
          · rfl
  refine ⟨?_, ?_, ?_, ?_, ?_, ?_, ?_, ?_⟩
  · rw [toggleColumn, hfind]
    simp [hlocked]
  · rw [isColumnVisible, find?_id_eq_of_nodup hnodup hc2]
    have hrev : (hideAllColumns columns) c2.id = some c2.locked := by
      rw [hideAllColumns]
      have hnd' : (columns.reverse.map (·.id)).Nodup := by
        rw [List.map_reverse]
        exact List.nodup_reverse.mpr hnodup
      rw [find?_id_eq_of_nodup hnd' (List.mem_reverse.mpr hc2)]
      rfl
    cases hcl : c2.locked
    · simp [hcl, hrev]
    · simp [hcl]
  · rw [handleDragStart, if_pos hcid2]
  · rw [handleDragOver, if_pos hcid2]
  · intro cid3
    rw [handleDragStart]
    by_cases h3 : lockedColumns.contains cid3 = true
    · simp only [h3, if_true]
      exact hinv
    · have h3f : lockedColumns.contains cid3 = false := by
        cases h5 : lockedColumns.contains cid3
        · rfl
        · exact absurd h5 h3
      simp only [h3f, Bool.false_eq_true, if_false]
      intro cid4 h4
      cases h4
      exact h3f
  · intro cid3 lh
    rw [handleDragOver]
    by_cases h3 : lockedColumns.contains cid3 = true
    · simp only [h3, if_true]
      exact hinv
    · have h3f : lockedColumns.contains cid3 = false := by
        cases h5 : lockedColumns.contains cid3
        · rfl
        · exact absurd h5 h3
      simp only [h3f, Bool.false_eq_true, if_false]
      cases hfi : jsIndexOfAux cid3 columnOrder
      · exact hinv
      · intro cid4 h4
        exact hinv cid4 h4
  · rw [hdropClear]
    intro cid4 h4
    cases h4
  · intro fromIdx toIdx hcall
    cases hd : dst.draggedId with
    | none =>
      rw [handleDrop] at hcall
      simp [hd] at hcall
    | some did =>
      cases hi : dst.dropIndex with
      | none =>
        rw [handleDrop] at hcall
        simp [hd, hi] at hcall
      | some di =>
        rw [handleDrop] at hcall
        simp only [hd, hi] at hcall
        by_cases he : did = ""
        · rw [if_pos he] at hcall
          cases hcall
        · rw [if_neg he] at hcall
          split at hcall
          · rename_i hcond
            obtain ⟨hne1, _, _⟩ := hcond
            have hpair := Option.some.inj hcall
            have hfrom : jsIndexOf columnOrder did = fromIdx :=
              congrArg Prod.fst hpair
            refine ⟨did, rfl, hinv did hd, ?_⟩
            cases hfi : jsIndexOfAux did columnOrder with
            | none =>
              exfalso
              apply hne1
              rw [jsIndexOf, hfi]
            | some i =>
              have hji : jsIndexOf columnOrder did = (i : Int) := by
                rw [jsIndexOf, hfi]
              rw [← hfrom, hji]
              simpa using get?_of_jsIndexOfAux hfi
          · cases hcall

/-- C8 witness. -/
theorem lockedColumn_invariants_witness :
    toggleColumn [⟨"L", true⟩, ⟨"A", false⟩] (fun _ => none) "L" = (fun _ => none) ∧
    isColumnVisible [⟨"L", true⟩, ⟨"A", false⟩]
        (hideAllColumns [⟨"L", true⟩, ⟨"A", false⟩]) (VisColumn.mk "A" false).id =
      (VisColumn.mk "A" false).locked ∧
    handleDragStart ["L"] initialDragState "L" = initialDragState ∧
    handleDragOver ["L"] ["A", "L", "B"] initialDragState "L" true = initialDragState ∧
    (∀ cid3, dragInvariant ["L"] (handleDragStart ["L"] initialDragState cid3)) ∧
    (∀ cid3 lh,
      dragInvariant ["L"] (handleDragOver ["L"] ["A", "L", "B"] initialDragState cid3 lh)) ∧
    dragInvariant ["L"] (handleDrop ["A", "L", "B"] initialDragState).2 ∧
    (∀ fromIdx toIdx,
      (handleDrop ["A", "L", "B"] initialDragState).1 = some (fromIdx, toIdx) →
      ∃ did, initialDragState.draggedId = some did ∧
        (["L"] : List String).contains did = false ∧
        (["A", "L", "B"] : List String).get? fromIdx.toNat = some did) :=
  lockedColumn_invariants [⟨"L", true⟩, ⟨"A", false⟩] (fun _ => none) "L" ⟨"L", true⟩
    (by decide) (by decide) (by decide) ⟨"A", false⟩ (by decide) ["L"] ["A", "L", "B"]
    initialDragState "L" (by decide) true (fun _ h => nomatch h)

lemma isWsChar_not_digit {c : Char} (h : isWsChar c = true) : c.isDigit = false := by
  have h' : c = ' ' ∨ c = '\t' ∨ c = '\n' ∨ c = '\r' ∨ c = '\x0b' ∨ c = '\x0c' := by
    simpa [isWsChar] using h
  rcases h' with rfl | rfl | rfl | rfl | rfl | rfl <;> decide

lemma takeDigits_cons_not_digit {c : Char} {cs : List Char}
    (h : c.isDigit = false) (n : Nat) : takeDigits (n + 1) (c :: cs) = none := by
  simp [takeDigits, h]

/-- A stack-frame line starts (after whitespace) with `a`, so the
embedded-prefix pattern, which requires a leading digit, never matches
it. -/
lemma parseEmbedded_frame_none {m : String} (hf : isFrameLine m = true) :
    parseEmbedded m = none := by
  have hts : parseTimestampPat m.data = none := by
    cases hd : m.data with
    | nil =>
      rw [isFrameLine, hd] at hf
      simp at hf
    | cons c0 rest =>
      have hc0 : c0.isDigit = false := by
        by_cases hw : isWsChar c0 = true
        · exact isWsChar_not_digit hw
        · rw [isFrameLine, hd, List.dropWhile_cons, if_neg (by simpa using hw)] at hf
          cases rest with
          | nil => simp at hf
          | cons c1 rest1 =>
            cases rest1 with
            | nil => simp at hf
            | cons c2 rest2 =>
              simp only [Bool.and_eq_true, decide_eq_true_eq] at hf
              obtain ⟨⟨h1, _⟩, _⟩ := hf
              subst h1
              decide
      have h4 : takeDigits 4 (c0 :: rest) = none := takeDigits_cons_not_digit hc0 3
      rw [parseTimestampPat, h4]
      rfl
  rw [parseEmbedded, hts]
  rfl

lemma isFrameLine_empty_false : isFrameLine "" = false := by decide

/-- A stack-frame line passes through `normalizeLog` with its message
untouched (the embedded pattern cannot match it and the error heuristics
only change the level). -/
lemma normalizeLog_message_of_frame {m : String} (hf : isFrameLine m = true)
    (nowTs : String) (log : PartialLogEntry) (hm : log.message = some m) :
    (normalizeLog nowTs log).message = m := by
  have hne : m ≠ "" := by
    intro h0
    rw [h0, isFrameLine_empty_false] at hf
    cases hf
  have hpe : parseEmbedded m = none := parseEmbedded_frame_none hf
  simp [normalizeLog, normMessage, hm, hne, hpe]

/-- C7: coalescing. Generally: appending one more raw entry whose message is
a stack-frame line, when the coalesced output is nonempty (last entry
`prev`), folds the frame into `prev.metadata.stack` (newline-joined onto an
existing stack) instead of adding an entry, so the length is unchanged.
Concretely: the three-message example produces exactly one entry with
message `Error X` and the two frame lines newline-joined as its stack. -/
theorem stackTrace_coalescing (nowTs : String) (es : List PartialLogEntry)
    (e : PartialLogEntry) (m : String) (prev : LogEntry)
    (hm : e.message = some m) (hf : isFrameLine m = true)
    (hprev : (coalesceStackTraces nowTs es).getLast? = some prev) :
    coalesceStackTraces nowTs (es ++ [e]) =
      (coalesceStackTraces nowTs es).dropLast ++
        [{ prev with stack := some (appendStack prev.stack m) }] ∧
    (coalesceStackTraces nowTs (es ++ [e])).length =
      (coalesceStackTraces nowTs es).length ∧
    (coalesceStackTraces "T0"
        [⟨none, none, some "Error X", none, none, none⟩,
         ⟨none, none, some "    at foo (a.js:1)", none, none, none⟩,
         ⟨none, none, some "    at bar (b.js:2)", none, none, none⟩]).map
      (fun l => (l.message, l.stack)) =
      [("Error X", some "    at foo (a.js:1)\n    at bar (b.js:2)")] := by
  have hmsg : (normalizeLog nowTs e).message = m :=
    normalizeLog_message_of_frame hf nowTs e hm
  have hstep : coalesceStackTraces nowTs (es ++ [e]) =
      coalesceStep nowTs (coalesceStackTraces nowTs es) e := by
    rw [coalesceStackTraces, coalesceStackTraces, List.foldl_append, List.foldl_cons,
      List.foldl_nil]
  have hne : coalesceStackTraces nowTs es ≠ [] := by
    intro h0
    rw [h0] at hprev
    cases hprev
  have hmain : coalesceStackTraces nowTs (es ++ [e]) =
      (coalesceStackTraces nowTs es).dropLast ++
        [{ prev with stack := some (appendStack prev.stack m) }] := by
    rw [hstep, coalesceStep, hmsg, if_pos hf, hprev]
  refine ⟨hmain, ?_, by decide⟩
  rw [hmain]
  have hpos : 0 < (coalesceStackTraces nowTs es).length := List.length_pos.mpr hne
  simp [List.length_dropLast]
  omega

/-- C7 witness. -/
theorem stackTrace_coalescing_witness :
    coalesceStackTraces "T0"
        ([⟨none, none, some "Error X", none, none, none⟩] ++
          [⟨none, none, some "    at foo (a.js:1)", none, none, none⟩]) =
      (coalesceStackTraces "T0" [⟨none, none, some "Error X", none, none, none⟩]).dropLast ++
        [{ LogEntry.mk "T0" "error" "Error X" none none none with
            stack := some (appendStack none "    at foo (a.js:1)") }] ∧
    (coalesceStackTraces "T0"
        ([⟨none, none, some "Error X", none, none, none⟩] ++
          [⟨none, none, some "    at foo (a.js:1)", none, none, none⟩])).length =
      (coalesceStackTraces "T0" [⟨none, none, some "Error X", none, none, none⟩]).length ∧
    (coalesceStackTraces "T0"
        [⟨none, none, some "Error X", none, none, none⟩,
         ⟨none, none, some "    at foo (a.js:1)", none, none, none⟩,
         ⟨none, none, some "    at bar (b.js:2)", none, none, none⟩]).map
      (fun l => (l.message, l.stack)) =
      [("Error X", some "    at foo (a.js:1)\n    at bar (b.js:2)")] :=
  stackTrace_coalescing "T0" [⟨none, none, some "Error X", none, none, none⟩]
    ⟨none, none, some "    at foo (a.js:1)", none, none, none⟩ "    at foo (a.js:1)"
    (LogEntry.mk "T0" "error" "Error X" none none none) rfl (by decide) (by decide)

/-- C5 evidence: on the fetch/externally-supplied path with the default
`newestFirst = true`, 15 entries of increasing timestamps and
`maxEntries = 10` are sorted newest-first and then cut with
`slice(-10)` — retaining the 10 *oldest* timestamps `101..110` and dropping
the most recent `111..115`, contrary to the claimed most-recent-N
retention. The live-push path, by contrast, does retain the 10 most recent
(`106..115`). -/
theorem maxEntries_eviction_keeps_oldest_on_fetch :
    (fetchPipeline evictionTsVal true 10 "T0" evictionEntries).map (·.timestamp) =
      ["110", "109", "108", "107", "106", "105", "104", "103", "102", "101"] ∧
    "115" ∉ (fetchPipeline evictionTsVal true 10 "T0" evictionEntries).map (·.timestamp) ∧
    (evictionEntries.foldl (fun acc r => livePush 10 "T0" acc r) []).map (·.timestamp) =
      ["106", "107", "108", "109", "110", "111", "112", "113", "114", "115"] := by
  refine ⟨by decide, by decide, by decide⟩

/-- C9: a rejected `onFetchLogs` or `onFetchArchives` leaves the log list
and the archive list exactly as they were, flags the error as logged (the
effect is total, so nothing propagates), and clears the loading flag; the
loading flag also clears on success. -/
theorem fetch_error_atomicity (tsVal : String → Int) (newestFirst : Bool)
    (maxEntries : Nat) (nowTs : String) (st : ViewerState) (e e' : Unit) :
    (runLogsFetch tsVal newestFirst maxEntries nowTs st (.error e)).1.logs = st.logs ∧
    (runLogsFetch tsVal newestFirst maxEntries nowTs st (.error e)).1.logFiles =
      st.logFiles ∧
    (runLogsFetch tsVal newestFirst maxEntries nowTs st (.error e)).1.loading = false ∧
    (runLogsFetch tsVal newestFirst maxEntries nowTs st (.error e)).2 = true ∧
    (runArchivesFetch st (.error e')).1.logs = st.logs ∧
    (runArchivesFetch st (.error e')).1.logFiles = st.logFiles ∧
    (runArchivesFetch st (.error e')).1.loading = false ∧
    (runArchivesFetch st (.error e')).2 = true ∧
    (∀ fetched,
      (runLogsFetch tsVal newestFirst maxEntries nowTs st (.ok fetched)).1.loading =
        false) ∧
    (∀ archives, (runArchivesFetch st (.ok archives)).1.loading = false) :=
  ⟨rfl, rfl, rfl, rfl, rfl, rfl, rfl, rfl, fun _ => rfl, fun _ => rfl⟩

end AppFramework
